import Mathlib

/-!
Shallow embedding of `src/tools/launcher/util/launcher_util.cc` (Bazel launcher
utilities for Windows). C++ `std::string` values are modelled as `List Char`;
`size_t` arithmetic is `Nat` taken modulo 2^64 where wraparound matters; the
platform calls (Windows API) that the file wraps are modelled as explicit
parameters or state, each documented at its definition.
-/

/-- The modulus of the C `size_t` type, 2^64. -/
def SIZE_T_MOD : Nat := 18446744073709551616

/-- C `size_t` subtraction `a - b`: wraps modulo 2^64 when `b` exceeds `a`. -/
def sizeTSub (a b : Nat) : Nat := (SIZE_T_MOD + a - b) % SIZE_T_MOD

/-- The while-loop body of `GetEscapedArgument` (launcher_util.cc lines
119-136): consume the argument character by character, appending to the
accumulated output stream; a double quote emits backslash-quote, a backslash
emits a doubled backslash, any other character is emitted unchanged. -/
def escapeLoop (acc : List Char) : List Char → List Char
  | [] => acc
  | ch :: it =>
      escapeLoop
        (acc ++ (if ch = '"' then ('\\' :: '"' :: [])
                 else if ch = '\\' then ('\\' :: '\\' :: [])
                 else (ch :: []))) it

/-- `std::string::find_first_of` for a single character: the index of the first
occurrence, or `none` standing for `npos`. -/
def findFirstOf : List Char → Char → Option Nat
  | [], _ => none
  | x :: xs, c => if x = c then some 0 else (findFirstOf xs c).map (fun n => n + 1)

/-- `GetEscapedArgument` (launcher_util.cc lines 111-142): wrap in double
quotes when the argument contains a space, and escape every double quote and
every backslash in a single left-to-right pass. -/
def GetEscapedArgument (argument : List Char) : List Char :=
  let has_space := (findFirstOf argument ' ').isSome
  let opening := if has_space then ('"' :: []) else []
  let body := escapeLoop opening argument
  if has_space then body ++ ('"' :: []) else body

/-- The per-character transform described by the spec (section 4.1, step 2):
a double quote becomes backslash-quote, a backslash is doubled
unconditionally, every other character is unchanged. Written from the spec's
words, to be compared with the embedded code. -/
def specEscapeChar (c : Char) : List Char :=
  if c = '"' then ('\\' :: '"' :: [])
  else if c = '\\' then ('\\' :: '\\' :: [])
  else (c :: [])

/-- The escaped form described by the spec (section 4.1): a leading and a
trailing double quote exactly when the argument contains a space, around the
concatenated character-by-character transform. -/
def specEscaped (x : List Char) : List Char :=
  (if ' ' ∈ x then ('"' :: []) else [])
    ++ (x.map specEscapeChar).flatten
    ++ (if ' ' ∈ x then ('"' :: []) else [])

theorem escapeLoop_eq (l : List Char) :
    ∀ acc, escapeLoop acc l = acc ++ (l.map specEscapeChar).flatten := by
  induction l with
  | nil => intro acc; simp [escapeLoop]
  | cons c l ih => intro acc; simp [escapeLoop, specEscapeChar, ih, List.append_assoc]

theorem findFirstOf_isSome (c : Char) :
    ∀ s : List Char, (findFirstOf s c).isSome = true ↔ c ∈ s := by
  intro s
  induction s with
  | nil => simp [findFirstOf]
  | cons x xs ih =>
      simp only [findFirstOf, List.mem_cons]
      by_cases hx : x = c
      · subst hx; simp
      · have hcx : ¬ c = x := fun h => hx h.symm
        simp [hx, hcx, ih]

/-- C1: for every argument string `x`, `GetEscapedArgument x` equals the
concatenation of a leading double quote when `x` contains a space, the
character-by-character transform replacing each double quote with
backslash-quote and each backslash with a doubled backslash (unconditionally),
and a trailing double quote when `x` contains a space. -/
theorem getEscapedArgument_matches_spec (x : List Char) :
    GetEscapedArgument x = specEscaped x := by
  unfold GetEscapedArgument specEscaped
  by_cases hs : ' ' ∈ x
  · have h1 : (findFirstOf x ' ').isSome = true := (findFirstOf_isSome _ _).mpr hs
    simp [h1, hs, escapeLoop_eq]
  · have h1 : ¬ (findFirstOf x ' ').isSome = true := fun h =>
      hs ((findFirstOf_isSome _ _).mp h)
    simp [h1, hs, escapeLoop_eq]

theorem mapEscape_id :
    ∀ x : List Char, '"' ∉ x → '\\' ∉ x → (x.map specEscapeChar).flatten = x := by
  intro x
  induction x with
  | nil => intro _ _; simp
  | cons c l ih =>
      intro hq hb
      simp only [List.mem_cons, not_or] at hq hb
      have hcq : ¬ c = '"' := fun h => hq.1 h.symm
      have hcb : ¬ c = '\\' := fun h => hb.1 h.symm
      simp [specEscapeChar, hcq, hcb, ih hq.2 hb.2]

/-- C2: for every argument string with no space, no double quote and no
backslash, `GetEscapedArgument` is the identity. -/
theorem getEscapedArgument_identity (x : List Char)
    (hs : ' ' ∉ x) (hq : '"' ∉ x) (hb : '\\' ∉ x) :
    GetEscapedArgument x = x := by
  have h1 : ¬ (findFirstOf x ' ').isSome = true := fun h =>
    hs ((findFirstOf_isSome _ _).mp h)
  unfold GetEscapedArgument
  simp [h1, escapeLoop_eq, mapEscape_id x hq hb]

/-- Witness for C2 at the concrete argument "ab". -/
theorem getEscapedArgument_identity_witness :
    GetEscapedArgument ('a' :: 'b' :: []) = ('a' :: 'b' :: []) :=
  getEscapedArgument_identity _ (by decide) (by decide) (by decide)

/-- The occurrence test of `std::string::find`: the pattern `pat` occurs in
`s` starting at index `i`. -/
def matchAt (s pat : List Char) (i : Nat) : Bool :=
  decide ((s.drop i).take pat.length = pat)

/-- `std::string::find(pat, pos)`: the smallest index `i` with `pos ≤ i` at
which `pat` occurs in `s`, or `none` standing for `npos` when there is no such
index (in particular whenever `pos` exceeds the length of `s`). -/
def stringFind (s pat : List Char) (pos : Nat) : Option Nat :=
  (List.range (s.length + 1)).find? (fun i => decide (pos ≤ i) && matchAt s pat i)

/-- The literal ".exe" executable suffix. -/
def exeExt : List Char := ('.' :: 'e' :: 'x' :: 'e' :: [])

/-- `GetBinaryPathWithoutExtension` (launcher_util.cc lines 100-105): when
`binary.find(".exe", binary.size() - 4)` is not `npos`, return
`binary.substr(0, binary.length() - 4)`, otherwise return `binary` unchanged.
The position argument `binary.size() - 4` is `size_t` arithmetic and wraps for
strings shorter than four characters. -/
def GetBinaryPathWithoutExtension (binary : List Char) : List Char :=
  match stringFind binary exeExt (sizeTSub binary.length 4) with
  | some _ => binary.take (sizeTSub binary.length 4)
  | none => binary

/-- `GetBinaryPathWithExtension` (launcher_util.cc lines 107-109): strip the
suffix, then append ".exe" unconditionally. -/
def GetBinaryPathWithExtension (binary : List Char) : List Char :=
  GetBinaryPathWithoutExtension binary ++ exeExt

theorem stringFind_eq_none_of_lt (s pat : List Char) (pos : Nat)
    (h : s.length < pos) : stringFind s pat pos = none := by
  unfold stringFind
  rw [List.find?_eq_none]
  intro i hi
  rw [List.mem_range] at hi
  simp only [Bool.and_eq_true, decide_eq_true_eq]
  intro hc
  omega

theorem sizeTSub_four (L : Nat) (h4 : 4 ≤ L) (hL : L < SIZE_T_MOD) :
    sizeTSub L 4 = L - 4 := by
  unfold sizeTSub
  have h1 : SIZE_T_MOD + L - 4 = SIZE_T_MOD + (L - 4) := by omega
  rw [h1, Nat.add_mod_left, Nat.mod_eq_of_lt (by omega)]

theorem sizeTSub_four_lt (L : Nat) (h4 : L < 4) : L < sizeTSub L 4 := by
  unfold sizeTSub
  have h1 : SIZE_T_MOD + L - 4 < SIZE_T_MOD := by unfold SIZE_T_MOD; omega
  rw [Nat.mod_eq_of_lt h1]
  unfold SIZE_T_MOD
  omega

/-- Characterization of the stripping function: it removes the last four
characters exactly when the string has at least four characters and its last
four characters are ".exe". -/
theorem stripExe_eq (p : List Char) (hp : p.length < SIZE_T_MOD) :
    GetBinaryPathWithoutExtension p =
      if 4 ≤ p.length ∧ p.drop (p.length - 4) = exeExt
      then p.take (p.length - 4) else p := by
  by_cases h4 : 4 ≤ p.length
  · have hpos : sizeTSub p.length 4 = p.length - 4 := sizeTSub_four _ h4 hp
    have hlen : (p.drop (p.length - 4)).length = 4 := by
      rw [List.length_drop]; omega
    by_cases hsuf : p.drop (p.length - 4) = exeExt
    · have hmem : (p.length - 4) ∈ List.range (p.length + 1) := by
        rw [List.mem_range]; omega
      have hpred : (decide (p.length - 4 ≤ p.length - 4)
          && matchAt p exeExt (p.length - 4)) = true := by
        unfold matchAt
        simp only [Bool.and_eq_true, decide_eq_true_eq]
        refine ⟨le_refl _, ?_⟩
        have hex : exeExt.length = 4 := by decide
        rw [hex, List.take_of_length_le (by omega), hsuf]
      have hne : stringFind p exeExt (sizeTSub p.length 4) ≠ none := by
        rw [hpos]
        unfold stringFind
        rw [Ne, List.find?_eq_none]
        intro hall
        exact absurd hpred (by simpa using hall _ hmem)
      unfold GetBinaryPathWithoutExtension
      cases hf : stringFind p exeExt (sizeTSub p.length 4) with
      | none => exact absurd hf hne
      | some j => rw [hpos, if_pos ⟨h4, hsuf⟩]
    · have hnone : stringFind p exeExt (sizeTSub p.length 4) = none := by
        rw [hpos]
        unfold stringFind
        rw [List.find?_eq_none]
        intro i hi
        rw [List.mem_range] at hi
        unfold matchAt
        simp only [Bool.and_eq_true, decide_eq_true_eq, not_and]
        intro hle htake
        have hexlen : exeExt.length = 4 := by decide
        rw [hexlen] at htake
        have hlen2 : ((p.drop i).take 4).length = 4 := by
          rw [htake]; decide
        rw [List.length_take, List.length_drop] at hlen2
        have hieq : i = p.length - 4 := by omega
        subst hieq
        rw [List.take_of_length_le (by omega)] at htake
        exact hsuf htake
      unfold GetBinaryPathWithoutExtension
      rw [hnone, if_neg (fun hc => hsuf hc.2)]
  · have hnone : stringFind p exeExt (sizeTSub p.length 4) = none :=
      stringFind_eq_none_of_lt _ _ _ (sizeTSub_four_lt _ (by omega))
    unfold GetBinaryPathWithoutExtension
    rw [hnone, if_neg (fun hc => h4 hc.1)]

theorem stripExe_append_exe (q : List Char) (hq : q.length + 4 < SIZE_T_MOD) :
    GetBinaryPathWithoutExtension (q ++ exeExt) = q := by
  have hlen : (q ++ exeExt).length = q.length + 4 := by simp [exeExt]
  have hd : (q ++ exeExt).length - 4 = q.length := by omega
  have hcond : 4 ≤ (q ++ exeExt).length ∧
      (q ++ exeExt).drop ((q ++ exeExt).length - 4) = exeExt := by
    refine ⟨by omega, ?_⟩
    rw [hd, List.drop_left]
  rw [stripExe_eq _ (by omega), if_pos hcond, hd, List.take_left]

theorem stripExe_length_le (p : List Char) :
    (GetBinaryPathWithoutExtension p).length ≤ p.length := by
  unfold GetBinaryPathWithoutExtension
  cases stringFind p exeExt (sizeTSub p.length 4) with
  | none => exact le_refl _
  | some j => rw [List.length_take]; exact min_le_right _ _

/-- C4: `GetBinaryPathWithoutExtension` removes the last four characters
exactly when the trailing four characters case-sensitively equal ".exe", and
otherwise returns the path unchanged; in particular a path shorter than four
characters never matches (the wrapped `size_t` position is past the end of the
string) and is returned unchanged. -/
theorem getBinaryPathWithoutExtension_spec (p : List Char)
    (hp : p.length < SIZE_T_MOD) :
    GetBinaryPathWithoutExtension p =
      if 4 ≤ p.length ∧ p.drop (p.length - 4) = exeExt
      then p.take (p.length - 4) else p :=
  stripExe_eq p hp

/-- Witness for C4 at the concrete path "a.exe". -/
theorem getBinaryPathWithoutExtension_spec_witness :
    GetBinaryPathWithoutExtension ('a' :: '.' :: 'e' :: 'x' :: 'e' :: []) =
      ('a' :: []) :=
  (getBinaryPathWithoutExtension_spec _ (by decide)).trans (by decide)

/-- C5: stripping after adding the ".exe" extension equals a plain strip. -/
theorem strip_after_add_roundtrip (p : List Char)
    (hp : p.length + 4 < SIZE_T_MOD) :
    GetBinaryPathWithoutExtension (GetBinaryPathWithExtension p) =
      GetBinaryPathWithoutExtension p := by
  unfold GetBinaryPathWithExtension
  exact stripExe_append_exe _ (by have := stripExe_length_le p; omega)

/-- Witness for C5 at the concrete path "a". -/
theorem strip_after_add_roundtrip_witness :
    GetBinaryPathWithoutExtension (GetBinaryPathWithExtension ('a' :: [])) =
      GetBinaryPathWithoutExtension ('a' :: []) :=
  strip_after_add_roundtrip _ (by decide)

/-- C6: `GetBinaryPathWithExtension` maps "foo/bar" and "foo/bar.exe" both to
"foo/bar.exe"; in general it first strips a trailing ".exe" and then appends
".exe" unconditionally, so a path already ending in ".exe" is returned
unchanged (the suffix is never doubled). -/
theorem getBinaryPathWithExtension_spec :
    GetBinaryPathWithExtension
        ('f' :: 'o' :: 'o' :: '/' :: 'b' :: 'a' :: 'r' :: []) =
      ('f' :: 'o' :: 'o' :: '/' :: 'b' :: 'a' :: 'r' :: '.' :: 'e' :: 'x' :: 'e' :: []) ∧
    GetBinaryPathWithExtension
        ('f' :: 'o' :: 'o' :: '/' :: 'b' :: 'a' :: 'r' :: '.' :: 'e' :: 'x' :: 'e' :: []) =
      ('f' :: 'o' :: 'o' :: '/' :: 'b' :: 'a' :: 'r' :: '.' :: 'e' :: 'x' :: 'e' :: []) ∧
    (∀ p : List Char, p.length < SIZE_T_MOD →
      GetBinaryPathWithExtension p = GetBinaryPathWithoutExtension p ++ exeExt ∧
      (4 ≤ p.length → p.drop (p.length - 4) = exeExt →
        GetBinaryPathWithExtension p = p)) := by
  refine ⟨by decide, by decide, fun p hp => ⟨rfl, fun h4 hsuf => ?_⟩⟩
  unfold GetBinaryPathWithExtension
  rw [stripExe_eq p hp, if_pos ⟨h4, hsuf⟩, ← hsuf, List.take_append_drop]

/-- Witness for C6 at the concrete path "b.exe". -/
theorem getBinaryPathWithExtension_spec_witness :
    GetBinaryPathWithExtension ('b' :: '.' :: 'e' :: 'x' :: 'e' :: []) =
      ('b' :: '.' :: 'e' :: 'x' :: 'e' :: []) :=
  (getBinaryPathWithExtension_spec.2.2 _ (by decide)).2 (by decide) (by decide)

/-- The process environment block, owned by the operating system: a map from
variable names to values. -/
def EnvState : Type := String → Option (List Char)

/-- Maximum environment-variable size (launcher_util.cc lines 144-146). -/
def BUFFER_SIZE : Nat := 32767

/-- Modelled from the spec: the Windows API call `SetEnvironmentVariableA`,
whose implementation is not part of this repository. It stores the value under
the name and reports success; a value that cannot fit an environment entry of
the documented maximum size (spec section 4.4, launcher_util.cc lines 144-145)
is rejected and the environment left unchanged. -/
def setEnvironmentVariableA (env : EnvState) (name : String) (value : List Char) :
    Bool × EnvState :=
  if value.length + 1 ≤ BUFFER_SIZE then
    (true, fun n => if n = name then some value else env n)
  else (false, env)

/-- Modelled from the spec: the Windows API call `GetEnvironmentVariableA`,
whose implementation is not part of this repository. It returns the number of
characters copied into the buffer of the given size together with the copied
content: zero characters when the variable is unset, when its stored value is
empty, or when the call fails because the value does not fit the buffer (spec
section 4.4: absence and failure are indistinguishable). -/
def getEnvironmentVariableA (env : EnvState) (name : String) (bufSize : Nat) :
    Nat × List Char :=
  match env name with
  | none => (0, [])
  | some v => if v.length + 1 ≤ bufSize then (v.length, v) else (0, [])

/-- `GetEnv` (launcher_util.cc lines 148-155): calls `GetEnvironmentVariableA`
with a 32,767-character buffer, reports failure (`none`) when zero characters
were copied, and otherwise yields the buffer content. -/
def GetEnv (env : EnvState) (name : String) : Option (List Char) :=
  let r := getEnvironmentVariableA env name BUFFER_SIZE
  if r.1 = 0 then none else some r.2

/-- `SetEnv` (launcher_util.cc lines 157-159): a direct wrapper around
`SetEnvironmentVariableA`; the first component is the reported success, the
second the resulting process environment. -/
def SetEnv (env : EnvState) (name : String) (value : List Char) :
    Bool × EnvState :=
  setEnvironmentVariableA env name value

/-- Counterexample to C3 as stated: setting a variable to the empty string
succeeds, yet the immediately following read reports failure instead of
yielding the empty value. -/
theorem setEnv_getEnv_empty_counterexample :
    (SetEnv (fun _ => none) "FOO" []).1 = true ∧
    GetEnv (SetEnv (fun _ => none) "FOO" []).2 "FOO" ≠ some [] := by
  constructor
  · decide
  · decide

/-- C3 (amended): a successful `SetEnv` of a nonempty value followed
immediately by `GetEnv` of the same name yields exactly that value, and
`GetEnv` on an unset variable name reports absent; the round trip does not
hold for the empty value, which `GetEnv` reports as absent. -/
theorem setEnv_getEnv_roundtrip :
    (∀ (env : EnvState) (name : String) (v : List Char), v ≠ [] →
      (SetEnv env name v).1 = true →
      GetEnv (SetEnv env name v).2 name = some v) ∧
    (∀ (env : EnvState) (name : String), env name = none →
      GetEnv env name = none) := by
  constructor
  · intro env name v hv hs
    have hlen : v.length + 1 ≤ BUFFER_SIZE := by
      by_contra hc
      unfold SetEnv setEnvironmentVariableA at hs
      rw [if_neg hc] at hs
      simp at hs
    have hupd : (SetEnv env name v).2 name = some v := by
      unfold SetEnv setEnvironmentVariableA
      rw [if_pos hlen]
      simp
    unfold GetEnv getEnvironmentVariableA
    rw [hupd]
    have hv0 : v.length ≠ 0 := fun h => hv (List.eq_nil_of_length_eq_zero h)
    simp [hlen, hv0]
  · intro env name h
    unfold GetEnv getEnvironmentVariableA
    rw [h]
    simp

/-- Witness for C3 at a concrete set-then-get and a concrete unset name. -/
theorem setEnv_getEnv_roundtrip_witness :
    GetEnv (SetEnv (fun _ => none) "X" ('a' :: [])).2 "X" = some ('a' :: []) ∧
    GetEnv (fun _ => none) "Y" = none :=
  ⟨setEnv_getEnv_roundtrip.1 _ "X" _ (by decide) (by decide),
   setEnv_getEnv_roundtrip.2 _ "Y" rfl⟩

/-- C10: a variable whose stored value is the empty string is reported absent
by `GetEnv`, indistinguishable from an unset variable: the underlying platform
call reports zero characters copied in both cases. -/
theorem getEnv_empty_value_absent (env : EnvState) (name : String)
    (h : env name = some []) : GetEnv env name = none := by
  unfold GetEnv getEnvironmentVariableA
  rw [h]
  simp [BUFFER_SIZE]

/-- Witness for C10 at a concrete environment holding an empty value. -/
theorem getEnv_empty_value_absent_witness :
    GetEnv (fun n => if n = "E" then some [] else none) "E" = none :=
  getEnv_empty_value_absent _ "E" (by decide)

/-- The 62-character alphanumeric alphabet of `GetRandomStr`
(launcher_util.cc lines 162-163): uppercase letters, lowercase letters,
digits, in this fixed order. -/
def alphabet : List Char :=
  "ABCDEFGHIJKLMNOPQRSTUVWXYZabcdefghijklmnopqrstuvwxyz0123456789".toList

/-- `GetRandomStr` (launcher_util.cc lines 161-171): for each of the `len`
positions, one draw from the random source (modelled as the stream `rand` of
`unsigned int` values produced by `rand_s`, reduced modulo 2^32 for the
machine width) is mapped modulo the alphabet length into the alphabet. -/
def GetRandomStr (rand : Nat → Nat) (len : Nat) : List Char :=
  (List.range len).map (fun i =>
    alphabet.get ⟨rand i % 4294967296 % alphabet.length, Nat.mod_lt _ (by decide)⟩)

/-- C7: `GetRandomStr rand n` has length exactly `n`, every character of it
belongs to the fixed 62-character alphanumeric alphabet, and the character at
each position is obtained by reducing the corresponding random draw modulo the
alphabet length 62. -/
theorem getRandomStr_spec (rand : Nat → Nat) (n : Nat) :
    alphabet.length = 62 ∧
    (GetRandomStr rand n).length = n ∧
    (∀ c ∈ GetRandomStr rand n, c ∈ alphabet) ∧
    (∀ i, i < n → (GetRandomStr rand n).getD i 'A' =
      alphabet.getD (rand i % 4294967296 % alphabet.length) 'A') := by
  refine ⟨by decide, by simp [GetRandomStr], ?_, ?_⟩
  · intro c hc
    unfold GetRandomStr at hc
    rw [List.mem_map] at hc
    obtain ⟨i, _, hci⟩ := hc
    rw [← hci]
    exact List.get_mem _ _ _
  · intro i hi
    simp only [GetRandomStr, List.getD_eq_getElem?_getD, List.getElem?_map,
      List.getElem?_range hi, Option.map_some', Option.getD_some]
    rw [List.getElem?_eq_getElem (Nat.mod_lt _ (by decide))]
    simp [List.get_eq_getElem]

/-- Witness for C7 at the constant random source 100 and length 2: position 0
holds the alphabet character at index 100 mod 62 = 38. -/
theorem getRandomStr_spec_witness :
    (GetRandomStr (fun _ => 100) 2).getD 0 'A' = alphabet.getD 38 'A' :=
  (getRandomStr_spec (fun _ => 100) 2).2.2.2 0 (by decide)

/-- `GetLastErrorString` (launcher_util.cc lines 36-53). The pending
last-error code is the parameter `last_error` (the DWORD returned by
`GetLastError`); `formatMessage` models the Windows `FormatMessageA` call,
whose implementation is not part of this repository, giving the system message
text for a code. Returns the empty string for code 0, and otherwise the text
"(error: <code>): " followed by the system message. -/
def GetLastErrorString (last_error : Nat) (formatMessage : Nat → List Char) :
    List Char :=
  if last_error = 0 then []
  else "(error: ".toList ++ (Nat.repr last_error).toList
    ++ "): ".toList ++ formatMessage last_error

/-- C8: `GetLastErrorString` never fails: it returns the empty string exactly
when the pending last-error code is 0, and a non-empty message string for
every nonzero code. -/
theorem getLastErrorString_spec (last_error : Nat)
    (formatMessage : Nat → List Char) :
    (last_error = 0 → GetLastErrorString last_error formatMessage = []) ∧
    (last_error ≠ 0 → GetLastErrorString last_error formatMessage ≠ []) := by
  constructor
  · intro h
    simp [GetLastErrorString, h]
  · intro h hc
    rw [GetLastErrorString, if_neg h] at hc
    simp only [List.append_eq_nil] at hc
    exact absurd hc.1.1.1 (by decide)

/-- Witness for C8 at the codes 0 and 5. -/
theorem getLastErrorString_spec_witness :
    GetLastErrorString 0 (fun _ => []) = [] ∧
    GetLastErrorString 5 (fun _ => []) ≠ [] :=
  ⟨(getLastErrorString_spec 0 (fun _ => [])).1 rfl,
   (getLastErrorString_spec 5 (fun _ => [])).2 (by decide)⟩

/-- The observable outcome of a call to `die`: the bytes written to the
standard error stream and the process exit code. -/
structure FatalExit where
  stderrOut : List Char
  exitCode : Nat
  deriving DecidableEq

/-- `die` (launcher_util.cc lines 55-63): writes the fixed prefix
"LAUNCHER ERROR: ", then the formatted message, then a trailing newline to the
standard error stream, and terminates the process with exit code 1. -/
def die (message : List Char) : FatalExit :=
  ⟨"LAUNCHER ERROR: ".toList ++ message ++ ('\n' :: []), 1⟩

/-- The message built by the format string passed to `die` in
`AsAbsoluteWindowsPath`: "Couldn\x27t convert %s to absoulte Windows path."
with the path substituted for %s (the spelling follows the source). -/
def conversionFailureMessage (path : List Char) : List Char :=
  "Couldn\x27t convert ".toList ++ path ++ " to absoulte Windows path.".toList

/-- `AsAbsoluteWindowsPath` (launcher_util.cc lines 74-80): the underlying
conversion `blaze_util::AsAbsoluteWindowsPath` lives outside this module and
is modelled as the parameter `convert` (`none` when the platform cannot
resolve the path). On conversion failure the function does not return to its
caller but dies with a fatal diagnostic; on success it returns the converted
wide path. -/
def AsAbsoluteWindowsPath (convert : List Char → Option (List Char))
    (path : List Char) : Except FatalExit (List Char) :=
  match convert path with
  | some wpath => Except.ok wpath
  | none => Except.error (die (conversionFailureMessage path))

/-- C9: for every path the conversion cannot resolve, `AsAbsoluteWindowsPath`
does not return a value: it produces the fatal outcome whose standard-error
output is the fixed prefix followed by the message and a trailing newline and
whose exit code is 1, hence nonzero; for every path the conversion resolves,
it returns the converted wide path. -/
theorem asAbsoluteWindowsPath_spec (convert : List Char → Option (List Char))
    (path : List Char) :
    (convert path = none →
      AsAbsoluteWindowsPath convert path =
        Except.error
          ⟨"LAUNCHER ERROR: ".toList ++ conversionFailureMessage path
            ++ ('\n' :: []), 1⟩) ∧
    (∀ e, AsAbsoluteWindowsPath convert path = Except.error e →
      e.exitCode ≠ 0) ∧
    (∀ w, convert path = some w →
      AsAbsoluteWindowsPath convert path = Except.ok w) := by
  refine ⟨?_, ?_, ?_⟩
  · intro h
    unfold AsAbsoluteWindowsPath
    rw [h]
    rfl
  · intro e he
    unfold AsAbsoluteWindowsPath at he
    cases hc : convert path with
    | some w => rw [hc] at he; exact absurd he (by simp)
    | none =>
        rw [hc] at he
        have : e = die (conversionFailureMessage path) := by
          injection he with h1
          exact h1.symm
        rw [this]
        simp [die]
  · intro w hw
    unfold AsAbsoluteWindowsPath
    rw [hw]

/-- Witness for C9 at a conversion that fails on every path and one that
resolves every path to itself. -/
theorem asAbsoluteWindowsPath_spec_witness :
    AsAbsoluteWindowsPath (fun _ => none) ('p' :: []) =
      Except.error
        ⟨"LAUNCHER ERROR: ".toList ++ conversionFailureMessage ('p' :: [])
          ++ ('\n' :: []), 1⟩ ∧
    AsAbsoluteWindowsPath (fun q => some q) ('p' :: []) =
      Except.ok ('p' :: []) :=
  ⟨(asAbsoluteWindowsPath_spec (fun _ => none) ('p' :: [])).1 rfl,
   (asAbsoluteWindowsPath_spec (fun q => some q) ('p' :: [])).2.2 _ rfl⟩
